import Mathlib

/-!
Verification of the prompt-stripping filter of `_pages/main.py`.

The source compiles the multiline regular expression
`BYEXMAPLE_PROMT_RE = re.compile(r"^(>>|\.\.|=>)( |$)", re.M)` and the
filter `remove_code_promt text = BYEXMAPLE_PROMT_RE.sub(byexample_repl, text)`,
where `byexample_repl` returns `"#=> "` when group 1 is `"=>"` and `""`
otherwise.

We embed strings as `List Char` (wrapped into `String` at the boundary) and
model the global multiline substitution as a left-to-right scan `subAux`
carrying a flag that records whether the current position is a line start
(position 0, or immediately after a newline character).  A match can only
fire at a line-start position; it consumes the two-character token and, when
present, one following space; in the end-of-line case (`$`, i.e. the next
character is a newline, or the string ends) nothing besides the token is
consumed and scanning resumes at the newline, which is then copied.  No match
is ever empty, and a match never ends right after a newline, so the position
after a match is never a line start.
-/

/-- Group 1 of the pattern: the three two-character tokens `>>`, `..`, `=>`. -/
def isTok (c1 c2 : Char) : Bool :=
  (c1 == '>' && c2 == '>') || (c1 == '.' && c2 == '.') || (c1 == '=' && c2 == '>')

/-- The replacement callback of the source: `'#=> '` when group 1 is `'=>'`,
the empty string otherwise. -/
def byexample_repl (c1 c2 : Char) : List Char :=
  if c1 == '=' && c2 == '>' then ['#', '=', '>', ' '] else []

/-- One pass of `re.sub` over the remaining input.  The Bool flag is true
exactly at line-start positions (where the `^` anchor of the pattern holds).
In the `'\n' :: rest2` arm the match consumed only the token (group 2 was the
zero-width `$`); scanning resumes at the newline, which cannot itself start a
match, so it is copied and the flag becomes true. -/
def subAux : Bool → List Char → List Char
  | _, [] => []
  | false, c :: rest => c :: subAux (c == '\n') rest
  | true, c1 :: rest =>
      match rest with
      | [] => [c1]
      | c2 :: rest2 =>
          if isTok c1 c2 then
            match rest2 with
            | [] => byexample_repl c1 c2
            | c3 :: rest3 =>
                if c3 = ' ' then byexample_repl c1 c2 ++ subAux false rest3
                else if c3 = '\n' then byexample_repl c1 c2 ++ '\n' :: subAux true rest3
                else c1 :: subAux (c1 == '\n') (c2 :: c3 :: rest3)
          else c1 :: subAux (c1 == '\n') (c2 :: rest2)
termination_by _ s => s.length
decreasing_by all_goals (simp only [List.length_cons]; omega)

/-- The registered filter `remove_code_promt`: the global multiline
substitution applied to the whole text, starting at a line-start position. -/
def remove_code_promt (text : String) : String :=
  String.mk (subAux true text.data)

/-- Modelled from the spec: the per-line matching rule of section 4.1, applied
to a single newline-free line.  If the line starts with one of the three
tokens followed by a space, the token and that one space are replaced by the
replacement text; if the line is exactly the token, the token is replaced
(end-of-line case); otherwise the line is unchanged. -/
def lineSub (l : List Char) : List Char :=
  match l with
  | c1 :: c2 :: rest =>
      if isTok c1 c2 then
        match rest with
        | [] => byexample_repl c1 c2
        | c3 :: rest2 =>
            if c3 = ' ' then byexample_repl c1 c2 ++ rest2
            else l
      else l
  | _ => l

/-- Split a character list at newline characters (the separators are dropped;
a text with n newlines yields n+1 lines, as `str.split` semantics). -/
def splitNl : List Char → List (List Char)
  | [] => [[]]
  | c :: rest =>
      if c = '\n' then [] :: splitNl rest
      else (splitNl rest).modifyHead (fun l => c :: l)

/-- Rejoin lines with newline separators; inverse of `splitNl`. -/
def joinNl : List (List Char) → List Char
  | [] => []
  | [l] => l
  | l :: ls => l ++ '\n' :: joinNl ls

/-- Modelled from the spec: the line-by-line implementation of section 4.2 /
section 8 — split the text at newlines, apply the anchored rule to each line
independently, and rejoin. -/
def removePromptsLines (text : String) : String :=
  String.mk (joinNl ((splitNl text.data).map lineSub))

/-- Decidable rendering of "this line starts with one of the three tokens
immediately followed by a space or by end-of-line". -/
def lineMatches (l : List Char) : Bool :=
  match l with
  | c1 :: c2 :: rest =>
      isTok c1 c2 &&
        (match rest with
         | [] => true
         | c3 :: _ => c3 == ' ')
  | _ => false

/-- Decidable rendering of "no line of the text starts with a prompt token
followed by a space or end-of-line". -/
def noMatchLines (s : List Char) : Bool :=
  (splitNl s).all (fun l => !lineMatches l)

theorem subAux_nil (b : Bool) : subAux b [] = [] := by
  cases b <;> simp [subAux]

theorem subAux_false_cons (c : Char) (rest : List Char) :
    subAux false (c :: rest) = c :: subAux (c == '\n') rest := by
  simp [subAux]

theorem subAux_true_one (c : Char) : subAux true [c] = [c] := by
  simp [subAux]

theorem subAux_true_tok_space (c1 c2 : Char) (rest3 : List Char)
    (htok : isTok c1 c2 = true) :
    subAux true (c1 :: c2 :: ' ' :: rest3) = byexample_repl c1 c2 ++ subAux false rest3 := by
  simp [subAux, htok]

theorem subAux_true_tok_nl (c1 c2 : Char) (rest3 : List Char)
    (htok : isTok c1 c2 = true) :
    subAux true (c1 :: c2 :: '\n' :: rest3) =
      byexample_repl c1 c2 ++ '\n' :: subAux true rest3 := by
  simp [subAux, htok]

theorem subAux_true_tok_nil (c1 c2 : Char) (htok : isTok c1 c2 = true) :
    subAux true [c1, c2] = byexample_repl c1 c2 := by
  simp [subAux, htok]

theorem subAux_true_tok_other (c1 c2 c3 : Char) (rest3 : List Char)
    (htok : isTok c1 c2 = true) (h1 : c3 ≠ ' ') (h2 : c3 ≠ '\n') :
    subAux true (c1 :: c2 :: c3 :: rest3) =
      c1 :: subAux (c1 == '\n') (c2 :: c3 :: rest3) := by
  simp [subAux, htok, h1, h2]

theorem subAux_true_not_tok (c1 c2 : Char) (rest2 : List Char)
    (h : isTok c1 c2 = false) :
    subAux true (c1 :: c2 :: rest2) = c1 :: subAux (c1 == '\n') (c2 :: rest2) := by
  rw [subAux.eq_def]
  simp [h]

theorem beq_nl_false (c : Char) (h : c ≠ '\n') : (c == '\n') = false :=
  beq_eq_false_iff_ne.2 h

theorem isTok_nl_fst (c : Char) : isTok '\n' c = false := by
  have h1 : ('\n' == '>') = false := by decide
  have h2 : ('\n' == '.') = false := by decide
  have h3 : ('\n' == '=') = false := by decide
  simp [isTok, h1, h2, h3]

theorem isTok_nl_snd (c : Char) : isTok c '\n' = false := by
  have h1 : ('\n' == '>') = false := by decide
  have h2 : ('\n' == '.') = false := by decide
  simp [isTok, h1, h2]

/-- Copying: away from line starts, the scan copies newline-free text verbatim
and keeps the flag false. -/
theorem subAux_false_append (r t : List Char) (h : '\n' ∉ r) :
    subAux false (r ++ t) = r ++ subAux false t := by
  induction r with
  | nil => simp
  | cons c r ih =>
      simp only [List.mem_cons, not_or] at h
      simp only [List.cons_append, subAux_false_cons,
        beq_nl_false c (Ne.symm h.1), ih h.2]

/-- One line of the scan, starting at a line start: the matched span of the
anchored rule is rewritten and the rest of the line copied; `t` is the rest of
the text (empty, or starting at the newline that ended the line). -/
theorem subAux_true_line (l t : List Char) (hl : '\n' ∉ l)
    (ht : t = [] ∨ ∃ t2, t = '\n' :: t2) :
    subAux true (l ++ t) = lineSub l ++ subAux false t := by
  rcases l with _ | ⟨c1, _ | ⟨c2, r⟩⟩
  · rcases ht with rfl | ⟨t2, rfl⟩
    · simp [subAux_nil, lineSub]
    · rcases t2 with _ | ⟨c, t3⟩
      · simp [subAux_true_one, subAux_false_cons, subAux_nil, lineSub]
      · simp only [List.nil_append, lineSub]
        rw [subAux_true_not_tok _ _ _ (isTok_nl_fst c), subAux_false_cons]
  · simp only [List.mem_cons, not_or] at hl
    have hc1 : c1 ≠ '\n' := Ne.symm hl.1
    rcases ht with rfl | ⟨t2, rfl⟩
    · simp [subAux_true_one, subAux_nil, lineSub]
    · simp only [List.cons_append, List.nil_append]
      rw [subAux_true_not_tok _ _ _ (isTok_nl_snd c1), beq_nl_false c1 hc1]
      simp [lineSub]
  · simp only [List.mem_cons, not_or] at hl
    have hc1 : c1 ≠ '\n' := Ne.symm hl.1
    have hc2 : c2 ≠ '\n' := Ne.symm hl.2.1
    have hr : '\n' ∉ r := hl.2.2
    by_cases htok : isTok c1 c2 = true
    · rcases r with _ | ⟨c3, r2⟩
      · rcases ht with rfl | ⟨t2, rfl⟩
        · rw [List.append_nil, subAux_true_tok_nil c1 c2 htok]
          simp [lineSub, htok, subAux_nil]
        · simp only [List.cons_append, List.nil_append]
          rw [subAux_true_tok_nl c1 c2 t2 htok, subAux_false_cons]
          simp [lineSub, htok]
      · simp only [List.mem_cons, not_or] at hr
        have hc3 : c3 ≠ '\n' := Ne.symm hr.1
        have hr2 : '\n' ∉ r2 := hr.2
        by_cases hsp : c3 = ' '
        · subst hsp
          simp only [List.cons_append]
          rw [subAux_true_tok_space c1 c2 _ htok, subAux_false_append r2 t hr2]
          simp [lineSub, htok]
        · simp only [List.cons_append]
          rw [subAux_true_tok_other c1 c2 c3 _ htok hsp hc3, beq_nl_false c1 hc1]
          have : '\n' ∉ c2 :: c3 :: r2 := by
            simp [List.mem_cons, not_or, Ne.symm hc2, Ne.symm hc3, hr2]
          rw [show c2 :: c3 :: (r2 ++ t) = (c2 :: c3 :: r2) ++ t from rfl,
            subAux_false_append _ t this]
          simp [lineSub, htok, hsp]
    · have htok' : isTok c1 c2 = false := by
        cases h : isTok c1 c2
        · rfl
        · exact absurd h htok
      simp only [List.cons_append]
      rw [subAux_true_not_tok c1 c2 _ htok', beq_nl_false c1 hc1]
      have : '\n' ∉ c2 :: r := by simp [List.mem_cons, not_or, Ne.symm hc2, hr]
      rw [show c2 :: (r ++ t) = (c2 :: r) ++ t from rfl, subAux_false_append _ t this]
      simp [lineSub, htok']

theorem splitNl_ne_nil (s : List Char) : splitNl s ≠ [] := by
  induction s with
  | nil => simp [splitNl]
  | cons c rest ih =>
      by_cases hc : c = '\n'
      · simp [splitNl, hc]
      · cases h : splitNl rest with
        | nil => exact absurd h ih
        | cons a ls => simp [splitNl, hc, h, List.modifyHead]

theorem splitNl_shape (s : List Char) :
    ('\n' ∉ s ∧ splitNl s = [s]) ∨
      ∃ l t, s = l ++ '\n' :: t ∧ '\n' ∉ l ∧ splitNl s = l :: splitNl t := by
  induction s with
  | nil => left; simp [splitNl]
  | cons c rest ih =>
      by_cases hc : c = '\n'
      · subst hc
        right
        exact ⟨[], rest, by simp, by simp, by simp [splitNl]⟩
      · rcases ih with ⟨h1, h2⟩ | ⟨l, t, he, hn, hs⟩
        · left
          refine ⟨?_, ?_⟩
          · simp [List.mem_cons, not_or, Ne.symm hc, h1]
          · simp [splitNl, hc, h2, List.modifyHead]
        · right
          refine ⟨c :: l, t, by simp [he], ?_, ?_⟩
          · simp [List.mem_cons, not_or, Ne.symm hc, hn]
          · simp [splitNl, hc, hs, List.modifyHead]

theorem joinNl_cons (a : List Char) (ls : List (List Char)) (h : ls ≠ []) :
    joinNl (a :: ls) = a ++ '\n' :: joinNl ls := by
  cases ls with
  | nil => exact absurd rfl h
  | cons b ls2 => rfl

theorem joinNl_splitNl (s : List Char) : joinNl (splitNl s) = s := by
  induction s with
  | nil => rfl
  | cons c rest ih =>
      by_cases hc : c = '\n'
      · subst hc
        rw [show splitNl ('\n' :: rest) = [] :: splitNl rest by simp [splitNl]]
        rw [joinNl_cons _ _ (splitNl_ne_nil rest), ih]
        rfl
      · cases h : splitNl rest with
        | nil => exact absurd h (splitNl_ne_nil rest)
        | cons a ls =>
            rw [h] at ih
            rw [show splitNl (c :: rest) = (c :: a) :: ls by
              simp [splitNl, hc, h, List.modifyHead]]
            cases ls with
            | nil =>
                simp only [joinNl] at ih ⊢
                rw [ih]
            | cons b ls2 =>
                rw [joinNl_cons a (b :: ls2) (by simp)] at ih
                rw [joinNl_cons (c :: a) (b :: ls2) (by simp),
                  List.cons_append, ih]

theorem splitNl_noNl (s : List Char) (l : List Char) (h : l ∈ splitNl s) :
    '\n' ∉ l := by
  induction s generalizing l with
  | nil =>
      simp [splitNl] at h
      simp [h]
  | cons c rest ih =>
      by_cases hc : c = '\n'
      · subst hc
        rw [show splitNl ('\n' :: rest) = [] :: splitNl rest by simp [splitNl]] at h
        rcases List.mem_cons.1 h with rfl | h
        · simp
        · exact ih l h
      · cases hsp : splitNl rest with
        | nil => exact absurd hsp (splitNl_ne_nil rest)
        | cons a ls =>
            rw [show splitNl (c :: rest) = (c :: a) :: ls by
              simp [splitNl, hc, hsp, List.modifyHead]] at h
            rcases List.mem_cons.1 h with rfl | h
            · have ha : '\n' ∉ a := ih a (hsp ▸ List.mem_cons_self a ls)
              simp [List.mem_cons, not_or, Ne.symm hc, ha]
            · exact ih l (hsp ▸ List.mem_cons_of_mem a h)

theorem splitNl_of_noNl (s : List Char) (h : '\n' ∉ s) : splitNl s = [s] := by
  rcases splitNl_shape s with ⟨_, h2⟩ | ⟨l, t, rfl, _, _⟩
  · exact h2
  · exact absurd (by simp : '\n' ∈ l ++ '\n' :: t) h

theorem splitNl_append_nl (l t : List Char) (h : '\n' ∉ l) :
    splitNl (l ++ '\n' :: t) = l :: splitNl t := by
  induction l with
  | nil => simp [splitNl]
  | cons c l2 ih =>
      simp only [List.mem_cons, not_or] at h
      rw [List.cons_append, show splitNl (c :: (l2 ++ '\n' :: t)) =
        (splitNl (l2 ++ '\n' :: t)).modifyHead (fun a => c :: a) by
          simp [splitNl, Ne.symm h.1]]
      rw [ih h.2]
      rfl

theorem splitNl_joinNl (ls : List (List Char)) (h1 : ls ≠ [])
    (h2 : ∀ l ∈ ls, '\n' ∉ l) : splitNl (joinNl ls) = ls := by
  induction ls with
  | nil => exact absurd rfl h1
  | cons a ls ih =>
      cases ls with
      | nil =>
          simp only [joinNl]
          exact splitNl_of_noNl a (h2 a (List.mem_cons_self a []))
      | cons b ls2 =>
          rw [joinNl_cons a _ (by simp),
            splitNl_append_nl a _ (h2 a (List.mem_cons_self a _)),
            ih (by simp) (fun l hl => h2 l (List.mem_cons_of_mem a hl))]

/-- The whole-text scan computes exactly the line-by-line rewrite. -/
theorem subAux_true_eq_lines (n : Nat) :
    ∀ s : List Char, s.length ≤ n →
      subAux true s = joinNl ((splitNl s).map lineSub) := by
  induction n with
  | zero =>
      intro s hs
      have : s = [] := List.length_eq_zero.mp (Nat.le_zero.mp hs)
      subst this
      simp [subAux_nil, splitNl, lineSub, joinNl]
  | succ n ih =>
      intro s hs
      rcases splitNl_shape s with ⟨h1, h2⟩ | ⟨l, t, rfl, hn, hs2⟩
      · rw [h2]
        have hline := subAux_true_line s [] h1 (Or.inl rfl)
        simpa [subAux_nil, joinNl] using hline
      · rw [hs2]
        have hlen : t.length ≤ n := by
          simp only [List.length_append, List.length_cons] at hs
          omega
        have hline := subAux_true_line l ('\n' :: t) hn (Or.inr ⟨t, rfl⟩)
        rw [hline, subAux_false_cons, show ('\n' == '\n') = true from rfl,
          ih t hlen, List.map_cons,
          joinNl_cons _ _ (by simp [splitNl_ne_nil t])]

/-- The global multiline substitution is observably identical to the
line-by-line implementation. -/
theorem remove_eq_linewise (text : String) :
    remove_code_promt text = removePromptsLines text :=
  congrArg String.mk (subAux_true_eq_lines text.data.length text.data le_rfl)

theorem data_remove (text : String) :
    (remove_code_promt text).data = joinNl ((splitNl text.data).map lineSub) := by
  rw [remove_eq_linewise]
  rfl

theorem byexample_repl_noNl (c1 c2 : Char) : '\n' ∉ byexample_repl c1 c2 := by
  unfold byexample_repl
  split <;> decide

theorem lineSub_noNl (l : List Char) (h : '\n' ∉ l) : '\n' ∉ lineSub l := by
  rcases l with _ | ⟨c1, _ | ⟨c2, r⟩⟩
  · simp [lineSub]
  · simpa [lineSub] using h
  · by_cases htok : isTok c1 c2 = true
    · rcases r with _ | ⟨c3, r2⟩
      · simp only [lineSub, htok, if_true]
        exact byexample_repl_noNl c1 c2
      · by_cases hsp : c3 = ' '
        · subst hsp
          simp only [List.mem_cons, not_or] at h
          simp only [lineSub, htok, if_true, if_pos rfl, List.mem_append, not_or]
          exact ⟨byexample_repl_noNl c1 c2, h.2.2.2⟩
        · simpa [lineSub, htok, hsp] using h
    · have htok' : isTok c1 c2 = false := by
        cases hh : isTok c1 c2
        · rfl
        · exact absurd hh htok
      simpa [lineSub, htok'] using h

/-- Lines of the output are exactly the per-line rewrites of lines of the
input. -/
theorem splitNl_remove (text : String) :
    splitNl (remove_code_promt text).data = (splitNl text.data).map lineSub := by
  rw [data_remove]
  apply splitNl_joinNl
  · simpa using splitNl_ne_nil text.data
  · intro l hl
    rcases List.mem_map.1 hl with ⟨a, ha, rfl⟩
    exact lineSub_noNl a (splitNl_noNl _ a ha)

theorem getD_map_lineSub (ls : List (List Char)) (i : Nat) :
    (ls.map lineSub).getD i [] = lineSub (ls.getD i []) := by
  induction ls generalizing i with
  | nil => simp [lineSub]
  | cons a ls ih =>
      cases i with
      | zero => simp
      | succ j => simpa using ih j

/-- Line `i` of the output is the per-line rewrite of line `i` of the input. -/
theorem remove_line (text : String) (i : Nat) :
    (splitNl (remove_code_promt text).data).getD i [] =
      lineSub ((splitNl text.data).getD i []) := by
  rw [splitNl_remove, getD_map_lineSub]

theorem lineSub_of_not_matches (l : List Char) (h : lineMatches l = false) :
    lineSub l = l := by
  rcases l with _ | ⟨c1, _ | ⟨c2, r⟩⟩
  · rfl
  · rfl
  · by_cases htok : isTok c1 c2 = true
    · rcases r with _ | ⟨c3, r2⟩
      · simp [lineMatches, htok] at h
      · by_cases hsp : c3 = ' '
        · subst hsp
          simp [lineMatches, htok] at h
        · simp [lineSub, htok, hsp]
    · have htok' : isTok c1 c2 = false := by
        cases hh : isTok c1 c2
        · rfl
        · exact absurd hh htok
      simp [lineSub, htok']

theorem noMatchLines_spec (s : List Char) (h : noMatchLines s = true) :
    ∀ l ∈ splitNl s, lineMatches l = false := by
  intro l hl
  have := List.all_eq_true.1 h l hl
  simpa using this

theorem map_lineSub_id (ls : List (List Char))
    (h : ∀ l ∈ ls, lineMatches l = false) : ls.map lineSub = ls := by
  induction ls with
  | nil => rfl
  | cons a tl ih =>
      rw [List.map_cons, lineSub_of_not_matches a (h a (List.mem_cons_self a tl)),
        ih (fun l hl => h l (List.mem_cons_of_mem a hl))]

/-- If no line of the text matches the pattern, the substitution is the
identity. -/
theorem remove_of_noMatch (text : String) (h : noMatchLines text.data = true) :
    remove_code_promt text = text := by
  rw [remove_eq_linewise]
  unfold removePromptsLines
  rw [map_lineSub_id _ (noMatchLines_spec _ h), joinNl_splitNl]

theorem count_nl_joinNl (ls : List (List Char)) (h : ∀ l ∈ ls, '\n' ∉ l) :
    (joinNl ls).count '\n' = ls.length - 1 := by
  induction ls with
  | nil => simp [joinNl]
  | cons a tl ih =>
      cases tl with
      | nil =>
          simp only [joinNl, List.length_cons, List.length_nil]
          simp [List.count_eq_zero.2 (h a (List.mem_cons_self a []))]
      | cons b tl2 =>
          rw [joinNl_cons a _ (by simp), List.count_append,
            List.count_eq_zero.2 (h a (List.mem_cons_self a _)),
            List.count_cons_self,
            ih (fun l hl => h l (List.mem_cons_of_mem a hl))]
          simp only [List.length_cons]
          omega

/-- C1: every line beginning with the token `=>` followed by a single space or
by end-of-line has the matched span replaced by the literal four-character
text `#=> `, the trailing space always included; in particular
`remove_code_promt "=> 42\n" = "#=> 42\n"` and
`remove_code_promt "=>\n" = "#=> \n"`. -/
theorem claim_C1 (s : String) (i : Nat) (r : List Char) :
    ((splitNl s.data).getD i [] = '=' :: '>' :: ' ' :: r →
        (splitNl (remove_code_promt s).data).getD i [] =
          '#' :: '=' :: '>' :: ' ' :: r) ∧
    ((splitNl s.data).getD i [] = ['=', '>'] →
        (splitNl (remove_code_promt s).data).getD i [] = ['#', '=', '>', ' ']) ∧
    remove_code_promt "=> 42\n" = "#=> 42\n" ∧
    remove_code_promt "=>\n" = "#=> \n" := by
  refine ⟨fun hline => ?_, fun hline => ?_,
    by rw [remove_eq_linewise]; decide, by rw [remove_eq_linewise]; decide⟩
  · rw [remove_line, hline]
    simp [lineSub, isTok, byexample_repl]
  · rw [remove_line, hline]
    decide

theorem claim_C1_witness :
    (splitNl ("=> hi".data)).getD 0 [] = '=' :: '>' :: ' ' :: ['h', 'i'] ∧
    (splitNl (remove_code_promt "=> hi").data).getD 0 [] =
      '#' :: '=' :: '>' :: ' ' :: ['h', 'i'] :=
  ⟨by decide, (claim_C1 "=> hi" 0 ['h', 'i']).1 (by decide)⟩

/-- C2: every line beginning with the token `>>` or `..` followed by a single
space or by end-of-line has exactly the matched span (token plus at most one
space) deleted, the rest of the line shifted to line-start; in particular
`remove_code_promt ">> print(1)\n" = "print(1)\n"` and
`remove_code_promt "..   more\n" = "  more\n"`. -/
theorem claim_C2 (s : String) (i : Nat) (r : List Char) (c1 c2 : Char)
    (h : (c1 = '>' ∧ c2 = '>') ∨ (c1 = '.' ∧ c2 = '.')) :
    ((splitNl s.data).getD i [] = c1 :: c2 :: ' ' :: r →
        (splitNl (remove_code_promt s).data).getD i [] = r) ∧
    ((splitNl s.data).getD i [] = [c1, c2] →
        (splitNl (remove_code_promt s).data).getD i [] = []) ∧
    remove_code_promt ">> print(1)\n" = "print(1)\n" ∧
    remove_code_promt "..   more\n" = "  more\n" := by
  rcases h with ⟨rfl, rfl⟩ | ⟨rfl, rfl⟩ <;>
    refine ⟨fun hline => ?_, fun hline => ?_,
      by rw [remove_eq_linewise]; decide, by rw [remove_eq_linewise]; decide⟩ <;>
    rw [remove_line, hline] <;>
    simp [lineSub, isTok, byexample_repl]

theorem claim_C2_witness :
    (('>' = '>' ∧ '>' = '>') ∨ ('>' = '.' ∧ '>' = '.')) ∧
    (splitNl (">> print(1)\n".data)).getD 0 [] =
      '>' :: '>' :: ' ' :: ['p', 'r', 'i', 'n', 't', '(', '1', ')'] ∧
    (splitNl (remove_code_promt ">> print(1)\n").data).getD 0 [] =
      ['p', 'r', 'i', 'n', 't', '(', '1', ')'] :=
  ⟨Or.inl ⟨rfl, rfl⟩, by decide,
    (claim_C2 ">> print(1)\n" 0 ['p', 'r', 'i', 'n', 't', '(', '1', ')'] '>' '>'
      (Or.inl ⟨rfl, rfl⟩)).1 (by decide)⟩

/-- C3 fails as stated: deleting a `>>` marker can expose another prompt token
at line-start, which a second application then rewrites further.  At the
input `">> >> y\n"` the first application yields `">> y\n"` and the second
`"y\n"`. -/
theorem claim_C3_counterexample :
    ¬ (remove_code_promt (remove_code_promt ">> >> y\n") =
        remove_code_promt ">> >> y\n") := by
  have h1 : remove_code_promt ">> >> y\n" = ">> y\n" := by
    rw [remove_eq_linewise]; decide
  have h2 : remove_code_promt ">> y\n" = "y\n" := by
    rw [remove_eq_linewise]; decide
  rw [h1, h2]
  decide

/-- C3 (amended): a second application of removePrompts is the identity
whenever the first application's output has no line starting with a prompt
token followed by a space or end-of-line — in particular rewritten `#=> `
lines no longer match the pattern; without that condition idempotence fails. -/
theorem claim_C3_amended (s : String)
    (h : noMatchLines (remove_code_promt s).data = true) :
    remove_code_promt (remove_code_promt s) = remove_code_promt s :=
  remove_of_noMatch _ h

theorem claim_C3_witness :
    noMatchLines (remove_code_promt "=> 42\n").data = true ∧
    remove_code_promt (remove_code_promt "=> 42\n") = remove_code_promt "=> 42\n" := by
  have h : noMatchLines (remove_code_promt "=> 42\n").data = true := by
    rw [show remove_code_promt "=> 42\n" = "#=> 42\n" by
      rw [remove_eq_linewise]; decide]
    decide
  exact ⟨h, claim_C3_amended "=> 42\n" h⟩

/-- C4: on a text in which no line starts with one of the three tokens
followed by a space or end-of-line, removePrompts is the identity. -/
theorem claim_C4 (s : String) (h : noMatchLines s.data = true) :
    remove_code_promt s = s :=
  remove_of_noMatch s h

theorem claim_C4_witness :
    (noMatchLines ("x >> y\n".data) = true ∧
      remove_code_promt "x >> y\n" = "x >> y\n") ∧
    (noMatchLines (">>>rest".data) = true ∧
      remove_code_promt ">>>rest" = ">>>rest") :=
  ⟨⟨by decide, claim_C4 "x >> y\n" (by decide)⟩,
    ⟨by decide, claim_C4 ">>>rest" (by decide)⟩⟩

/-- C5: the single global multiline substitution is observably identical to
the line-by-line implementation that splits at newlines, applies the anchored
rule to each line independently, and rejoins. -/
theorem claim_C5 (text : String) :
    remove_code_promt text = removePromptsLines text :=
  remove_eq_linewise text

/-- C6: removePrompts is total — for every input string, including the empty
string, it returns a string. -/
theorem claim_C6 (s : String) : ∃ t : String, remove_code_promt s = t :=
  ⟨remove_code_promt s, rfl⟩

/-- C7: end-of-line means strictly a newline character or the absolute end of
the string; a token followed by any other character — in particular a
carriage return — is ordinary line content and the line is left unchanged, so
`remove_code_promt ">>\r\n" = ">>\r\n"`. -/
theorem claim_C7 (s : String) (i : Nat) (c1 c2 c3 : Char) (r : List Char)
    (htok : isTok c1 c2 = true) (hsp : c3 ≠ ' ') (_hnl : c3 ≠ '\n') :
    ((splitNl s.data).getD i [] = c1 :: c2 :: c3 :: r →
        (splitNl (remove_code_promt s).data).getD i [] = c1 :: c2 :: c3 :: r) ∧
    remove_code_promt ">>\r\n" = ">>\r\n" := by
  refine ⟨fun hline => ?_, by rw [remove_eq_linewise]; decide⟩
  rw [remove_line, hline]
  simp [lineSub, htok, hsp]

theorem claim_C7_witness :
    isTok '>' '>' = true ∧ ('\r' ≠ ' ') ∧ ('\r' ≠ '\n') ∧
    (splitNl (">>\r\n".data)).getD 0 [] = '>' :: '>' :: '\r' :: [] ∧
    (splitNl (remove_code_promt ">>\r\n").data).getD 0 [] =
      '>' :: '>' :: '\r' :: [] :=
  ⟨by decide, by decide, by decide, by decide,
    (claim_C7 ">>\r\n" 0 '>' '>' '\r' [] (by decide) (by decide) (by decide)).1
      (by decide)⟩

/-- C8: removePrompts is deterministic — equal inputs give equal outputs (the
embedding is a pure function, so no state outside the returned value exists). -/
theorem claim_C8 (s t : String) (h : s = t) :
    remove_code_promt s = remove_code_promt t := by
  rw [h]

theorem claim_C8_witness :
    (">> x" : String) = ">> x" ∧
    remove_code_promt ">> x" = remove_code_promt ">> x" :=
  ⟨rfl, claim_C8 ">> x" ">> x" rfl⟩

/-- C9: the output contains exactly as many newline characters as the input —
no replacement inserts or deletes a newline. -/
theorem claim_C9 (s : String) :
    ((remove_code_promt s).data).count '\n' = (s.data).count '\n' := by
  have hfree : ∀ l ∈ (splitNl s.data).map lineSub, '\n' ∉ l := by
    intro l hl
    rcases List.mem_map.1 hl with ⟨a, ha, rfl⟩
    exact lineSub_noNl a (splitNl_noNl _ a ha)
  have e2 : (s.data).count '\n' = (splitNl s.data).length - 1 := by
    conv_lhs => rw [← joinNl_splitNl s.data]
    exact count_nl_joinNl _ (fun l hl => splitNl_noNl _ l hl)
  rw [data_remove, count_nl_joinNl _ hfree, List.length_map, e2]

/-- C10: applied to the empty string, removePrompts returns the empty
string. -/
theorem claim_C10 : remove_code_promt "" = "" := by
  rw [remove_eq_linewise]
  decide
